import Mathlib

/-!
Shallow embedding of the core logic of src/App.py (store normalizer and
nearest-store resolver) and proofs of the specification claims about it.

Strings are modelled as lists of Unicode characters.  The regex character
classes of the source are modelled at the ASCII level (the classes the
source's regexes name explicitly: a-z, 0-9, whitespace, word characters),
and Python's str.lower / str.upper are modelled as the character-wise
ASCII case maps.
-/

namespace NearestStore

/-! ### Character classes (models of the regex classes used in App.py) -/

/-- Code point of a character. -/
def cp (c : Char) : Nat := c.toNat

/-- Model of the regex class a-z. -/
def isLowerAlpha (c : Char) : Bool := 97 ≤ cp c && cp c ≤ 122

/-- Model of the regex class A-Z. -/
def isUpperAlpha (c : Char) : Bool := 65 ≤ cp c && cp c ≤ 90

/-- Model of the regex class 0-9. -/
def isDigitChar (c : Char) : Bool := 48 ≤ cp c && cp c ≤ 57

/-- Model of the regex whitespace class backslash-s (ASCII part):
space, tab, newline, carriage return, vertical tab, form feed. -/
def isSpaceChar (c : Char) : Bool :=
  cp c == 32 || cp c == 9 || cp c == 10 || cp c == 13 || cp c == 11 || cp c == 12

/-- Model of the regex word class backslash-w (ASCII part): letters, digits,
underscore.  Word boundaries of the source's regexes are defined by it. -/
def isWordChar (c : Char) : Bool :=
  isLowerAlpha c || isUpperAlpha c || isDigitChar c || cp c == 95

/-- Character-wise model of Python str.lower (ASCII range). -/
def toLowerCh (c : Char) : Char :=
  if isUpperAlpha c then Char.ofNat (cp c + 32) else c

/-- Model of Python str.upper on one character.  Python's upper-casing can
expand one character into several: an ASCII lowercase letter maps to its
uppercase letter, and the sharp s U+00DF expands to the two letters SS.
Characters with further Unicode-specific uppercase mappings are outside
this model and kept unchanged (the theorems below quantify over ASCII
strings, or use U+00DF itself, where the model agrees with Python). -/
def upperChar (c : Char) : List Char :=
  if isLowerAlpha c then [Char.ofNat (cp c - 32)]
  else if cp c = 223 then ['S', 'S']
  else [c]

/-- Model of Python text.lower(). -/
def pyLower (s : List Char) : List Char := s.map toLowerCh

/-- Model of Python text.upper(): each character maps to its (possibly
multi-character) uppercase form and the results are concatenated. -/
def pyUpper : List Char → List Char
  | [] => []
  | c :: t => upperChar c ++ pyUpper t

/-! ### Whole-word substitution: model of re.sub(r'\b' + word + r'\b', digit, text) -/

/-- Whether the first list is an initial run of the second
(the matching step of the scanner below). -/
def leadsWith : List Char → List Char → Bool
  | [], _ => true
  | _ :: _, [] => false
  | a :: w, b :: s => a == b && leadsWith w s

/-- A word boundary to the right: end of string or a non-word character. -/
def boundaryAfter : List Char → Bool
  | [] => true
  | c :: _ => !isWordChar c

/-- Left-to-right scanner of re.sub for the pattern \b w \b with replacement
character d.  The Nat argument counts characters of an already replaced match
that remain to be consumed; the Bool argument tells whether the previous
character of the original string is a word character (for the left \b). -/
def subWordGo (w : List Char) (d : Char) : Nat → Bool → List Char → List Char
  | _, _, [] => []
  | Nat.succ n, _, c :: rest => subWordGo w d n (isWordChar c) rest
  | 0, prevW, c :: rest =>
    if !prevW && leadsWith w (c :: rest) && boundaryAfter (List.drop w.length (c :: rest)) then
      d :: subWordGo w d (w.length - 1) (isWordChar c) rest
    else
      c :: subWordGo w d 0 (isWordChar c) rest

/-- re.sub(r'\b' + w + r'\b', d, s): at the start of the string there is no
previous character and nothing left to skip. -/
def subWord (w : List Char) (d : Char) (s : List Char) : List Char :=
  subWordGo w d 0 false s

/-- The number_word_map of App.py, in its (insertion-ordered) iteration order. -/
def numberWordPairs : List (List Char × Char) :=
  [("one".toList, '1'), ("two".toList, '2'), ("three".toList, '3'),
   ("four".toList, '4'), ("five".toList, '5'), ("six".toList, '6'),
   ("seven".toList, '7'), ("eight".toList, '8'), ("nine".toList, '9'),
   ("zero".toList, '0')]

/-- The for-loop of App.py applying the ten whole-word substitutions in order. -/
def replaceNumberWords (s : List Char) : List Char :=
  numberWordPairs.foldl (fun t p => subWord p.1 p.2 t) s

/-! ### The remaining normalization passes -/

/-- The characters kept by re.sub(r'[^a-z0-9\s]', '', text). -/
def keepChar (c : Char) : Bool := isLowerAlpha c || isDigitChar c || isSpaceChar c

/-- Model of re.sub(r'[^a-z0-9\s]', '', text). -/
def stripNonAlnum (s : List Char) : List Char := s.filter keepChar

/-- Model of re.sub(r'\s+', ' ', text): every maximal whitespace run becomes
one space.  The flag records whether the previous character was whitespace. -/
def collapseSpaces : Bool → List Char → List Char
  | _, [] => []
  | prevSpace, c :: rest =>
    if isSpaceChar c then
      if prevSpace then collapseSpaces true rest
      else ' ' :: collapseSpaces true rest
    else c :: collapseSpaces false rest

/-- Drop trailing whitespace. -/
def trimRight : List Char → List Char
  | [] => []
  | c :: rest =>
    let r := trimRight rest
    if r.isEmpty && isSpaceChar c then [] else c :: r

/-- Model of Python text.strip(): drop leading and trailing whitespace. -/
def pyStrip (s : List Char) : List Char := trimRight (s.dropWhile isSpaceChar)

/-- Model of normalize_string of App.py on string input: lower-case,
replace whole-word number words by digits, drop every character that is not
a lowercase letter, digit or whitespace, collapse whitespace runs to single
spaces and strip the ends. -/
def normalize_string (text : List Char) : List Char :=
  pyStrip (collapseSpaces false (stripNonAlnum (replaceNumberWords (pyLower text))))

/-! ### Shape predicates for normalizer outputs -/

/-- Characters that may appear in a normalizer output:
lowercase ASCII letters, ASCII digits, the space. -/
def outChar (c : Char) : Bool := isLowerAlpha c || isDigitChar c || c == ' '

/-- No two adjacent spaces. -/
def noDoubleSpace : List Char → Bool
  | a :: b :: t => !(a == ' ' && b == ' ') && noDoubleSpace (b :: t)
  | _ => true

/-- The output shape of the normalizer: only lowercase letters, digits and
single spaces, with no space at either end. -/
def canonOut (l : List Char) : Bool :=
  l.all outChar && noDoubleSpace l &&
    l.head?.all (fun c => !(c == ' ')) && l.getLast?.all (fun c => !(c == ' '))

/-! ### Run view of whole-word substitution

A whole-word pattern made of word characters matches exactly the maximal
word-character runs equal to it, so the substitution chain acts run by run.
This auxiliary view is used in proofs only. -/

/-- Apply f to every maximal run of word characters, keep the rest. -/
def mapRuns (f : List Char → List Char) : List Char → List Char
  | [] => []
  | c :: rest =>
    if isWordChar c then
      f (c :: rest.takeWhile isWordChar) ++ mapRuns f (rest.dropWhile isWordChar)
    else
      c :: mapRuns f rest
termination_by l => l.length
decreasing_by
all_goals simp_wf
all_goals exact Nat.lt_succ_of_le (List.dropWhile_sublist _).length_le

/-- The action of one whole-word substitution on one word run. -/
def F (w : List Char) (d : Char) (r : List Char) : List Char :=
  if r = w then [d] else r

/-- The action of the whole substitution chain on one word run. -/
def numWordFun (r : List Char) : List Char :=
  if r = "one".toList then ['1'] else if r = "two".toList then ['2']
  else if r = "three".toList then ['3'] else if r = "four".toList then ['4']
  else if r = "five".toList then ['5'] else if r = "six".toList then ['6']
  else if r = "seven".toList then ['7'] else if r = "eight".toList then ['8']
  else if r = "nine".toList then ['9'] else if r = "zero".toList then ['0']
  else r

/-! ### Haversine distance (App.py, haversine) -/

/-- Model of Python math.radians. -/
noncomputable def radians (x : ℝ) : ℝ := x * (Real.pi / 180)

/-- Model of Python math.atan2 (real-argument case split of the C function). -/
noncomputable def atan2 (y x : ℝ) : ℝ :=
  if 0 < x then Real.arctan (y / x)
  else if x < 0 then
    (if 0 ≤ y then Real.arctan (y / x) + Real.pi else Real.arctan (y / x) - Real.pi)
  else
    (if 0 < y then Real.pi / 2 else if y < 0 then -(Real.pi / 2) else 0)

/-- Model of haversine of App.py: distance in kilometers between two
degree coordinates, Earth radius 6371 km. -/
noncomputable def haversine (lat1 lon1 lat2 lon2 : ℝ) : ℝ :=
  let R : ℝ := 6371
  let lat1r := radians lat1
  let lon1r := radians lon1
  let lat2r := radians lat2
  let lon2r := radians lon2
  let dlon := lon2r - lon1r
  let dlat := lat2r - lat1r
  let a := Real.sin (dlat / 2) ^ 2 +
    Real.cos lat1r * Real.cos lat2r * Real.sin (dlon / 2) ^ 2
  let c := 2 * atan2 (Real.sqrt a) (Real.sqrt (1 - a))
  R * c

/-- The Haversine reference formula as the specification words it:
convert the four angles to radians, form
a = sin^2(dlat/2) + cos(lat1) cos(lat2) sin^2(dlon/2) and return
2 R atan2(sqrt a, sqrt (1-a)) with R = 6371. -/
noncomputable def haversineSpec (lat1 lon1 lat2 lon2 : ℝ) : ℝ :=
  2 * 6371 *
    atan2
      (Real.sqrt (Real.sin ((radians lat2 - radians lat1) / 2) ^ 2 +
        Real.cos (radians lat1) * Real.cos (radians lat2) *
          Real.sin ((radians lon2 - radians lon1) / 2) ^ 2))
      (Real.sqrt (1 - (Real.sin ((radians lat2 - radians lat1) / 2) ^ 2 +
        Real.cos (radians lat1) * Real.cos (radians lat2) *
          Real.sin ((radians lon2 - radians lon1) / 2) ^ 2)))

/-! ### Nearest-store search (App.py, Search Stores tab) -/

/-- A row of stores_df as the search uses it. -/
structure StoreRec where
  name : List Char
  latitude : ℝ
  longitude : ℝ
  normalized_store_type : Option (List Char)

/-- The sentinel store-type filter value. -/
def allStoresLabel : List Char := "All Stores".toList

/-- The store-type filtering step of the search: when the selected type is
not the sentinel, keep the rows whose normalized_store_type equals the
normalized filter value. -/
def filtered_stores (searchType : List Char) (stores : List StoreRec) : List StoreRec :=
  if searchType ≠ allStoresLabel then
    stores.filter (fun s => s.normalized_store_type == some (normalize_string searchType))
  else stores

/-- The distance_km column: each remaining row with its haversine distance
from the user coordinate. -/
noncomputable def withDistances (ulat ulon : ℝ) (stores : List StoreRec) :
    List (StoreRec × ℝ) :=
  stores.map (fun s => (s, haversine ulat ulon s.latitude s.longitude))

/-- The search result rows: nothing when the filtered frame is empty
(the code only shows a message then), otherwise the first three rows of the
distance-sorted frame.  The sorting of sort_values is passed in as a
function, since pandas pins down only that it sorts by the distance column
(its default quicksort gives no tie order). -/
noncomputable def searchResults (sortf : List (StoreRec × ℝ) → List (StoreRec × ℝ))
    (ulat ulon : ℝ) (searchType : List Char) (stores : List StoreRec) :
    List (StoreRec × ℝ) :=
  let fs := filtered_stores searchType stores
  if fs.isEmpty then []
  else (sortf (withDistances ulat ulon fs)).take 3

/-- Ascending by the distance column. -/
def distAscending (l : List (StoreRec × ℝ)) : Prop :=
  l.Pairwise (fun a b => a.2 ≤ b.2)

/-! ### add_store_to_db (App.py) -/

/-- A stores-collection document as add_store_to_db writes it. -/
structure StoreDoc where
  name : List Char
  address : List Char
  latitude : ℝ
  longitude : ℝ
  contact_number : List Char
  branch_supervisor : List Char
  store_status : List Char
  store_hours : List Char
  store_type : Option (List Char)
  google_pin_location : List Char
  normalized_name : List Char
  normalized_address : List Char
  normalized_store_type : Option (List Char)

/-- normalize_string(store_type) if store_type else None
(an absent or empty store type is falsy). -/
def normTypeOpt : Option (List Char) → Option (List Char)
  | none => none
  | some t => if t.isEmpty then none else some (normalize_string t)

/-- Model of add_store_to_db: compute the normalized keys, reject when a
stored document already carries both keys, otherwise append the new
document.  Returns the success flag and the new collection state. -/
def add_store_to_db (stores : List StoreDoc) (name address : List Char)
    (latitude longitude : ℝ)
    (contact_number branch_supervisor store_status store_hours : List Char)
    (store_type : Option (List Char)) (google_pin_location : List Char) :
    Bool × List StoreDoc :=
  let normalized_name := normalize_string name
  let normalized_address := normalize_string address
  let normalized_store_type := normTypeOpt store_type
  if stores.any (fun r =>
      r.normalized_name == normalized_name && r.normalized_address == normalized_address) then
    (false, stores)
  else
    (true, stores ++ [⟨name, address, latitude, longitude, contact_number,
      branch_supervisor, store_status, store_hours, store_type,
      google_pin_location, normalized_name, normalized_address,
      normalized_store_type⟩])

/-! ### Concrete demonstration data -/

/-- The document the first add of the Al Barsha scenario writes
(normalized fields as add_store_to_db computes them). -/
def alBarshaDoc : StoreDoc :=
  ⟨"Al Barsha Branch".toList, "Some Address".toList, 0, 0, [], [], [], [], none, [],
   normalize_string ("Al Barsha Branch".toList), normalize_string ("Some Address".toList), none⟩

/-- Two stores at identical coordinates (an exact distance tie). -/
def storeA : StoreRec := ⟨"A".toList, 10, 20, none⟩

/-- See storeA. -/
def storeB : StoreRec := ⟨"B".toList, 10, 20, none⟩

/-! ## Lemmas -/

theorem cp_ofNat_lt {n : Nat} (h : n < 55296) : cp (Char.ofNat n) = n := by
  have hv : n.isValidChar := Or.inl h
  simp [cp, Char.ofNat, dif_pos hv, Char.ofNatAux, Char.toNat, UInt32.toNat]

theorem pyLower_upperChar_ascii {c : Char} (h : cp c < 128) :
    pyLower (upperChar c) = [toLowerCh c] := by
  by_cases hl : isLowerAlpha c = true
  · have hc : 97 ≤ cp c ∧ cp c ≤ 122 := by simpa [isLowerAlpha] using hl
    have h1 : cp (Char.ofNat (cp c - 32)) = cp c - 32 := cp_ofNat_lt (by omega)
    have hup : isUpperAlpha (Char.ofNat (cp c - 32)) = true := by
      simp only [isUpperAlpha, h1, Bool.and_eq_true, decide_eq_true_eq]
      omega
    have hnotup : ¬ isUpperAlpha c = true := by
      simp only [isUpperAlpha, Bool.and_eq_true, decide_eq_true_eq]
      omega
    have e2 : toLowerCh (Char.ofNat (cp c - 32)) = Char.ofNat (cp c - 32 + 32) := by
      rw [toLowerCh, if_pos hup, h1]
    rw [upperChar, if_pos hl]
    simp only [pyLower, List.map_cons, List.map_nil]
    rw [e2, show cp c - 32 + 32 = cp c by omega,
      show Char.ofNat (cp c) = c from Char.ofNat_toNat c,
      toLowerCh, if_neg hnotup]
  · rw [upperChar, if_neg hl, if_neg (by omega)]
    rfl

theorem pyLower_pyUpper_ascii {s : List Char} (h : ∀ c ∈ s, cp c < 128) :
    pyLower (pyUpper s) = pyLower s := by
  induction s with
  | nil => rfl
  | cons a t ih =>
    have e : pyLower (upperChar a ++ pyUpper t) =
        pyLower (upperChar a) ++ pyLower (pyUpper t) := List.map_append _ _ _
    rw [pyUpper, e, pyLower_upperChar_ascii (h a (List.mem_cons_self a t)),
      ih (fun c hc => h c (List.mem_cons_of_mem a hc))]
    rfl

theorem haversine_self (lat lon : ℝ) : haversine lat lon lat lon = 0 := by
  simp only [haversine, sub_self, zero_div, Real.sin_zero]
  norm_num [atan2, Real.sqrt_zero, Real.sqrt_one, Real.arctan_zero]

/-! ## Claim theorems -/

/-- Claim C3: for all degree coordinates, haversine equals the reference
Haversine formula (degrees to radians, a as in the spec, distance
2 R atan2(sqrt a, sqrt (1-a)) with R = 6371), and the distance from a
point to itself is 0. -/
theorem haversine_matches_reference_and_self_zero :
    (∀ lat1 lon1 lat2 lon2 : ℝ,
        haversine lat1 lon1 lat2 lon2 = haversineSpec lat1 lon1 lat2 lon2) ∧
    (∀ lat lon : ℝ, haversine lat lon lat lon = 0) := by
  constructor
  · intro lat1 lon1 lat2 lon2
    simp only [haversine, haversineSpec]
    ring
  · exact haversine_self

/-- Claim C4: the Haversine distance is symmetric in its two coordinate
pairs. -/
theorem haversine_symm :
    ∀ lat1 lon1 lat2 lon2 : ℝ,
      haversine lat1 lon1 lat2 lon2 = haversine lat2 lon2 lat1 lon1 := by
  intro lat1 lon1 lat2 lon2
  have key : ∀ x y : ℝ, Real.sin ((x - y) / 2) ^ 2 = Real.sin ((y - x) / 2) ^ 2 := by
    intro x y
    rw [show (x - y) / 2 = -((y - x) / 2) by ring, Real.sin_neg]
    ring
  simp only [haversine]
  rw [key (radians lat1) (radians lat2), key (radians lon1) (radians lon2),
    mul_comm (Real.cos (radians lat2)) (Real.cos (radians lat1))]

/-- Claim C9 (the code, against the claim): with the out-of-range latitude
200 the resolver does not fail: haversine silently returns 0 for the
point against itself, and the search silently produces a ranking. -/
theorem resolver_out_of_range_silently_computes :
    haversine 200 500 200 500 = 0 ∧
    searchResults id 200 500 allStoresLabel [⟨"s".toList, 200, 500, none⟩] =
      [(⟨"s".toList, 200, 500, none⟩, 0)] := by
  refine ⟨haversine_self 200 500, ?_⟩
  simp [searchResults, filtered_stores, withDistances, haversine_self]

/-- Claim C7: number words are replaced only at whole-word occurrences:
normalize_string("Branch One") is "branch 1" while "one" inside
"lone wolf" is untouched. -/
theorem normalize_whole_word_only :
    normalize_string ("Branch One".toList) = "branch 1".toList ∧
    normalize_string ("lone wolf".toList) = "lone wolf".toList := by
  decide

/-- Claim C2 (counterexample): the normalizer is not idempotent:
stripping punctuation can create a fresh whole word, here
normalize_string("o#ne") = "one" but a second application gives "1". -/
theorem normalize_not_idempotent :
    normalize_string (normalize_string ("o#ne".toList)) ≠
      normalize_string ("o#ne".toList) := by
  decide

/-- Claim C8 (counterexample): the normalizer is not case-insensitive over
all strings: the sharp s is stripped as non-alphanumeric, but its Python
uppercase form SS survives as ss, so normalizing the string and normalizing
its uppercase disagree. -/
theorem normalize_not_case_insensitive_eszett :
    normalize_string ("ß".toList) = [] ∧
    normalize_string (pyUpper ("ß".toList)) = "ss".toList ∧
    normalize_string ("ß".toList) ≠ normalize_string (pyUpper ("ß".toList)) := by
  refine ⟨by decide, by decide, by decide⟩

/-- Claim C8 (amended): the normalizer is case-insensitive on ASCII
strings: for every string of ASCII characters, normalizing s and
normalizing s.upper() agree. -/
theorem normalize_case_insensitive_ascii :
    ∀ s : List Char, (∀ c ∈ s, cp c < 128) →
      normalize_string s = normalize_string (pyUpper s) := by
  intro s h
  unfold normalize_string
  rw [pyLower_pyUpper_ascii h]

/-- Witness for the amended claim C8 at a concrete ASCII input. -/
theorem normalize_case_insensitive_ascii_witness :
    (∀ c ∈ ("Branch One".toList), cp c < 128) ∧
      normalize_string ("Branch One".toList) =
        normalize_string (pyUpper ("Branch One".toList)) :=
  ⟨by decide, normalize_case_insensitive_ascii ("Branch One".toList) (by decide)⟩

/-- Claim C5 (counterexample): the names of the Al Barsha scenario do not
normalize to the same key (the hyphen is deleted, not turned into a space),
so the second add attempt with the other spelling is accepted, not
rejected. -/
theorem alBarsha_second_add_not_rejected :
    normalize_string ("Al Barsha Branch".toList) ≠
        normalize_string ("al-barsha   branch".toList) ∧
    (add_store_to_db [alBarshaDoc] "al-barsha   branch".toList
        "Some Address".toList 0 0 [] [] [] [] none []).fst = true := by
  exact ⟨by decide, by decide⟩

/-- Claim C5 (amended): when a stored record carries the same
(normalized_name, normalized_address) pair as the new inputs,
add_store_to_db rejects the add and leaves the collection unchanged. -/
theorem add_store_duplicate_rejected (stores : List StoreDoc)
    (name address : List Char) (lat lon : ℝ)
    (cn bs ss sh : List Char) (ty : Option (List Char)) (pin : List Char)
    (h : ∃ r ∈ stores, r.normalized_name = normalize_string name ∧
      r.normalized_address = normalize_string address) :
    add_store_to_db stores name address lat lon cn bs ss sh ty pin = (false, stores) := by
  obtain ⟨r, hr, h1, h2⟩ := h
  have hany : (stores.any (fun r =>
      r.normalized_name == normalize_string name &&
      r.normalized_address == normalize_string address)) = true := by
    rw [List.any_eq_true]
    exact ⟨r, hr, by simp [h1, h2]⟩
  simp only [add_store_to_db]
  rw [if_pos hany]

/-- Witness for the amended claim C5: "Al Barsha Branch" and
"AL  BARSHA   BRANCH!" normalize to the same key, and the second add is
rejected without a write. -/
theorem add_store_duplicate_rejected_witness :
    add_store_to_db [alBarshaDoc] "AL  BARSHA   BRANCH!".toList
      "Some Address".toList 0 0 [] [] [] [] none [] = (false, [alBarshaDoc]) :=
  add_store_duplicate_rejected _ _ _ _ _ _ _ _ _ _ _
    ⟨alBarshaDoc, List.mem_singleton.mpr rfl, by decide, by decide⟩

/-- Claim C6: when the store-type filter matches no record's normalized
category, the search yields the empty result (the code shows a message and
renders no result rows; nothing is raised). -/
theorem search_no_category_match_returns_empty
    (sortf : List (StoreRec × ℝ) → List (StoreRec × ℝ)) (ulat ulon : ℝ)
    (searchType : List Char) (stores : List StoreRec)
    (hty : searchType ≠ allStoresLabel)
    (h : ∀ s ∈ stores, s.normalized_store_type ≠ some (normalize_string searchType)) :
    searchResults sortf ulat ulon searchType stores = [] := by
  have hf : filtered_stores searchType stores = [] := by
    rw [filtered_stores, if_pos hty, List.filter_eq_nil_iff]
    intro s hs
    simp [h s hs]
  simp [searchResults, hf]

/-- Witness for claim C6 at a concrete input. -/
theorem search_no_category_match_returns_empty_witness :
    searchResults id 25 55 ("Cafe".toList) [⟨"A".toList, 1, 2, some ("bakery".toList)⟩] = [] :=
  search_no_category_match_returns_empty id 25 55 _ _ (by decide)
    (by intro s hs
        rw [List.mem_singleton] at hs
        subst hs
        decide)

/-- Claim C1 (the code, against the claim): the sorting contract the code
relies on (sort_values returns a permutation ordered by the distance
column) does not determine the result on exact distance ties: two
admissible sorts give different search results on two stores at the same
coordinates. -/
theorem tie_order_not_determined_by_sort_contract :
    ∃ f g : List (StoreRec × ℝ) → List (StoreRec × ℝ),
      ((f (withDistances 0 0 [storeA, storeB])).Perm
          (withDistances 0 0 [storeA, storeB]) ∧
        distAscending (f (withDistances 0 0 [storeA, storeB]))) ∧
      ((g (withDistances 0 0 [storeA, storeB])).Perm
          (withDistances 0 0 [storeA, storeB]) ∧
        distAscending (g (withDistances 0 0 [storeA, storeB]))) ∧
      searchResults f 0 0 allStoresLabel [storeA, storeB] ≠
        searchResults g 0 0 allStoresLabel [storeA, storeB] := by
  refine ⟨id, List.reverse, ⟨List.Perm.refl _, ?_⟩, ⟨(List.reverse_perm _), ?_⟩, ?_⟩
  · simp [withDistances, distAscending, List.pairwise_cons, storeA, storeB]
  · simp [withDistances, distAscending, List.pairwise_cons, storeA, storeB]
  · intro heq
    have h2 := congrArg (List.map fun p => p.1.name) heq
    exact absurd h2 (by decide)

/-! ## Shape of the normalizer output (towards claims C10 and C2) -/

theorem dropWhile_head_not {α : Type} {p : α → Bool} {l : List α} {x : α}
    (h : (l.dropWhile p).head? = some x) : p x = false := by
  have hh := List.head?_dropWhile_not p l
  rw [h] at hh
  exact hh

theorem space_beq_false {c : Char} (h : isSpaceChar c = false) : (c == ' ') = false := by
  cases hc : c == ' ' with
  | false => rfl
  | true =>
    rw [beq_iff_eq] at hc
    subst hc
    exact absurd h (by decide)

theorem mem_collapseSpaces {b : Bool} {l : List Char} {c : Char}
    (h : c ∈ collapseSpaces b l) : c = ' ' ∨ (c ∈ l ∧ isSpaceChar c = false) := by
  induction l generalizing b with
  | nil => simp [collapseSpaces] at h
  | cons a t ih =>
    by_cases ha : isSpaceChar a = true
    · rw [collapseSpaces, if_pos ha] at h
      cases b with
      | true =>
        rcases ih h with h1 | h2
        · exact Or.inl h1
        · exact Or.inr ⟨List.mem_cons_of_mem a h2.1, h2.2⟩
      | false =>
        rcases List.mem_cons.mp h with h1 | h1
        · exact Or.inl h1
        · rcases ih h1 with h2 | h2
          · exact Or.inl h2
          · exact Or.inr ⟨List.mem_cons_of_mem a h2.1, h2.2⟩
    · rw [collapseSpaces, if_neg ha] at h
      rcases List.mem_cons.mp h with h1 | h1
      · subst h1
        exact Or.inr ⟨List.mem_cons_self c t, by simpa using ha⟩
      · rcases ih h1 with h2 | h2
        · exact Or.inl h2
        · exact Or.inr ⟨List.mem_cons_of_mem a h2.1, h2.2⟩

theorem collapseSpaces_true_head {l : List Char} {c : Char}
    (h : (collapseSpaces true l).head? = some c) : (c == ' ') = false := by
  induction l with
  | nil => simp [collapseSpaces] at h
  | cons a t ih =>
    by_cases ha : isSpaceChar a = true
    · rw [collapseSpaces, if_pos ha] at h
      exact ih h
    · rw [collapseSpaces, if_neg ha] at h
      simp only [List.head?_cons, Option.some.injEq] at h
      subst h
      exact space_beq_false (by simpa using ha)

theorem noDoubleSpace_tail {c : Char} {t : List Char}
    (h : noDoubleSpace (c :: t) = true) : noDoubleSpace t = true := by
  cases t with
  | nil => rfl
  | cons b u =>
    rw [noDoubleSpace, Bool.and_eq_true] at h
    exact h.2

theorem noDoubleSpace_pair {c x : Char} {t : List Char}
    (h : noDoubleSpace (c :: x :: t) = true) : (c == ' ' && x == ' ') = false := by
  cases hb : (c == ' ' && x == ' ') with
  | false => rfl
  | true =>
    rw [noDoubleSpace, hb, Bool.and_eq_true] at h
    exact absurd h.1 (by decide)

theorem noDoubleSpace_cons {c : Char} {X : List Char}
    (h : ∀ x, X.head? = some x → (c == ' ' && x == ' ') = false)
    (h2 : noDoubleSpace X = true) : noDoubleSpace (c :: X) = true := by
  cases X with
  | nil => rfl
  | cons b u =>
    rw [noDoubleSpace, Bool.and_eq_true]
    refine ⟨?_, h2⟩
    rw [h b rfl]
    rfl

theorem collapseSpaces_nds : ∀ (l : List Char) (b : Bool),
    noDoubleSpace (collapseSpaces b l) = true := by
  intro l
  induction l with
  | nil => intro b; rfl
  | cons a t ih =>
    intro b
    by_cases ha : isSpaceChar a = true
    · rw [collapseSpaces, if_pos ha]
      cases b with
      | true => exact ih true
      | false =>
        refine noDoubleSpace_cons ?_ (ih true)
        intro x hx
        have := collapseSpaces_true_head hx
        simp [this]
    · rw [collapseSpaces, if_neg ha]
      refine noDoubleSpace_cons ?_ (ih false)
      intro x _
      simp [space_beq_false (by simpa using ha)]

theorem trimRight_head (l : List Char) :
    trimRight l = [] ∨ (trimRight l).head? = l.head? := by
  cases l with
  | nil => exact Or.inl rfl
  | cons c rest =>
    rw [trimRight]
    by_cases h : (trimRight rest).isEmpty && isSpaceChar c
    · rw [if_pos h]; exact Or.inl rfl
    · rw [if_neg h]; exact Or.inr rfl

theorem mem_trimRight {l : List Char} {c : Char} (h : c ∈ trimRight l) : c ∈ l := by
  induction l with
  | nil => simp [trimRight] at h
  | cons a t ih =>
    rw [trimRight] at h
    by_cases hc : (trimRight t).isEmpty && isSpaceChar a
    · rw [if_pos hc] at h
      simp at h
    · rw [if_neg hc] at h
      rcases List.mem_cons.mp h with h1 | h1
      · exact h1 ▸ List.mem_cons_self a t
      · exact List.mem_cons_of_mem a (ih h1)

theorem trimRight_nds {l : List Char} (h : noDoubleSpace l = true) :
    noDoubleSpace (trimRight l) = true := by
  induction l with
  | nil => rfl
  | cons a t ih =>
    rw [trimRight]
    by_cases hc : (trimRight t).isEmpty && isSpaceChar a
    · rw [if_pos hc]; rfl
    · rw [if_neg hc]
      refine noDoubleSpace_cons ?_ (ih (noDoubleSpace_tail h))
      intro x hx
      rcases trimRight_head t with he | he
      · rw [he] at hx; simp at hx
      · rw [he] at hx
        cases t with
        | nil => simp at hx
        | cons b u =>
          simp only [List.head?_cons, Option.some.injEq] at hx
          subst hx
          exact noDoubleSpace_pair h

theorem trimRight_getLast : ∀ {l : List Char} {x : Char},
    (trimRight l).getLast? = some x → isSpaceChar x = false := by
  intro l
  induction l with
  | nil => intro x h; simp [trimRight] at h
  | cons a t ih =>
    intro x h
    rw [trimRight] at h
    by_cases hc : (trimRight t).isEmpty && isSpaceChar a
    · rw [if_pos hc] at h
      simp at h
    · rw [if_neg hc] at h
      cases he : trimRight t with
      | nil =>
        rw [he] at h
        simp only [List.getLast?_singleton, Option.some.injEq] at h
        subst h
        rw [he] at hc
        simpa using hc
      | cons b u =>
        rw [he] at h
        rw [List.getLast?_cons_cons] at h
        exact ih (he ▸ h)

theorem nds_dropWhile {p : Char → Bool} {l : List Char}
    (h : noDoubleSpace l = true) : noDoubleSpace (l.dropWhile p) = true := by
  induction l with
  | nil => rfl
  | cons a t ih =>
    rw [List.dropWhile_cons]
    by_cases hp : p a = true
    · rw [if_pos hp]; exact ih (noDoubleSpace_tail h)
    · rw [if_neg hp]; exact h

theorem keepChar_outChar {c : Char} (hk : keepChar c = true)
    (hs : isSpaceChar c = false) : outChar c = true := by
  rw [keepChar, Bool.or_eq_true, Bool.or_eq_true] at hk
  rw [outChar, Bool.or_eq_true, Bool.or_eq_true]
  rcases hk with (h | h) | h
  · exact Or.inl (Or.inl h)
  · exact Or.inl (Or.inr h)
  · exact Bool.noConfusion (hs.symm.trans h)

theorem canonOut_normalize : ∀ l : List Char, canonOut (normalize_string l) = true := by
  intro l
  set m1 := stripNonAlnum (replaceNumberWords (pyLower l)) with hm1
  have hkeep : ∀ c ∈ m1, keepChar c = true := by
    intro c hc
    rw [hm1, stripNonAlnum] at hc
    exact (List.mem_filter.mp hc).2
  set m2 := collapseSpaces false m1 with hm2
  have hout2 : ∀ c ∈ m2, outChar c = true := by
    intro c hc
    rcases mem_collapseSpaces (hm2 ▸ hc) with h1 | h1
    · subst h1; decide
    · exact keepChar_outChar (hkeep c h1.1) h1.2
  have hnds2 : noDoubleSpace m2 = true := collapseSpaces_nds m1 false
  have hns : normalize_string l = trimRight (m2.dropWhile isSpaceChar) := rfl
  rw [hns, canonOut]
  have hall : (trimRight (m2.dropWhile isSpaceChar)).all outChar = true := by
    rw [List.all_eq_true]
    intro x hx
    exact hout2 x ((List.dropWhile_sublist _).subset (mem_trimRight hx))
  have hnds : noDoubleSpace (trimRight (m2.dropWhile isSpaceChar)) = true :=
    trimRight_nds (nds_dropWhile hnds2)
  have hhead : (trimRight (m2.dropWhile isSpaceChar)).head?.all
      (fun c => !(c == ' ')) = true := by
    rcases trimRight_head (m2.dropWhile isSpaceChar) with he | he
    · rw [he]; rfl
    · rw [he]
      cases hh : (m2.dropWhile isSpaceChar).head? with
      | none => rfl
      | some x =>
        show (!(x == ' ')) = true
        rw [space_beq_false (dropWhile_head_not hh)]
        rfl
  have hlast : (trimRight (m2.dropWhile isSpaceChar)).getLast?.all
      (fun c => !(c == ' ')) = true := by
    cases hh : (trimRight (m2.dropWhile isSpaceChar)).getLast? with
    | none => rfl
    | some x =>
      show (!(x == ' ')) = true
      rw [space_beq_false (trimRight_getLast hh)]
      rfl
  rw [hall, hnds, hhead, hlast]
  rfl

/-- Claim C10: every normalizer output consists only of lowercase ASCII
letters, ASCII digits and single spaces, with no leading or trailing
space. -/
theorem normalize_output_shape : ∀ l : List Char, canonOut (normalize_string l) = true :=
  canonOut_normalize

/-! ## Scanner lemmas for whole-word substitution -/

theorem mem_subWordGo {w : List Char} {d x : Char} :
    ∀ (l : List Char) (k : Nat) (p : Bool),
      x ∈ subWordGo w d k p l → x = d ∨ x ∈ l := by
  intro l
  induction l with
  | nil =>
    intro k p h
    simp only [subWordGo] at h
    exact absurd h (List.not_mem_nil x)
  | cons c rest ih =>
    intro k p h
    cases k with
    | succ n =>
      simp only [subWordGo] at h
      rcases ih _ _ h with h1 | h1
      · exact Or.inl h1
      · exact Or.inr (List.mem_cons_of_mem c h1)
    | zero =>
      simp only [subWordGo] at h
      by_cases hc : (!p && leadsWith w (c :: rest) &&
          boundaryAfter (List.drop w.length (c :: rest))) = true
      · rw [if_pos hc] at h
        rcases List.mem_cons.mp h with h1 | h1
        · exact Or.inl h1
        · rcases ih _ _ h1 with h2 | h2
          · exact Or.inl h2
          · exact Or.inr (List.mem_cons_of_mem c h2)
      · rw [if_neg hc] at h
        rcases List.mem_cons.mp h with h1 | h1
        · exact Or.inr (h1 ▸ List.mem_cons_self c rest)
        · rcases ih _ _ h1 with h2 | h2
          · exact Or.inl h2
          · exact Or.inr (List.mem_cons_of_mem c h2)

theorem subWordGo_zero_head {w : List Char} {d : Char} {p : Bool} {l : List Char} {x : Char}
    (h : (subWordGo w d 0 p l).head? = some x) : x = d ∨ l.head? = some x := by
  cases l with
  | nil => simp [subWordGo] at h
  | cons c rest =>
    simp only [subWordGo] at h
    by_cases hc : (!p && leadsWith w (c :: rest) &&
        boundaryAfter (List.drop w.length (c :: rest))) = true
    · rw [if_pos hc] at h
      simp only [List.head?_cons, Option.some.injEq] at h
      exact Or.inl h.symm
    · rw [if_neg hc] at h
      simp only [List.head?_cons, Option.some.injEq] at h
      exact Or.inr (by rw [List.head?_cons, h])

theorem subWordGo_zero_nil {w : List Char} {d : Char} {p : Bool} {l : List Char}
    (h : subWordGo w d 0 p l = []) : l = [] := by
  cases l with
  | nil => rfl
  | cons c rest =>
    simp only [subWordGo] at h
    by_cases hc : (!p && leadsWith w (c :: rest) &&
        boundaryAfter (List.drop w.length (c :: rest))) = true
    · rw [if_pos hc] at h; cases h
    · rw [if_neg hc] at h; cases h

theorem subWordGo_nds {w : List Char} {d : Char} (hd : (d == ' ') = false) :
    ∀ (l : List Char) (k : Nat) (p : Bool), noDoubleSpace l = true →
      noDoubleSpace (subWordGo w d k p l) = true := by
  intro l
  induction l with
  | nil => intro k p _; simp only [subWordGo]; rfl
  | cons c rest ih =>
    intro k p h
    cases k with
    | succ n =>
      simp only [subWordGo]
      exact ih _ _ (noDoubleSpace_tail h)
    | zero =>
      simp only [subWordGo]
      by_cases hc : (!p && leadsWith w (c :: rest) &&
          boundaryAfter (List.drop w.length (c :: rest))) = true
      · rw [if_pos hc]
        refine noDoubleSpace_cons ?_ (ih _ _ (noDoubleSpace_tail h))
        intro y _
        simp [hd]
      · rw [if_neg hc]
        refine noDoubleSpace_cons ?_ (ih _ _ (noDoubleSpace_tail h))
        intro y hy
        rcases subWordGo_zero_head hy with h1 | h1
        · subst h1; simp [hd]
        · cases rest with
          | nil => simp at h1
          | cons b u =>
            simp only [List.head?_cons, Option.some.injEq] at h1
            subst h1
            exact noDoubleSpace_pair h

theorem subWordGo_getLast {w : List Char} {d : Char} :
    ∀ (l : List Char) (k : Nat) (p : Bool) (x : Char),
      (subWordGo w d k p l).getLast? = some x → x = d ∨ l.getLast? = some x := by
  intro l
  induction l with
  | nil => intro k p x h; simp [subWordGo] at h
  | cons c rest ih =>
    intro k p x h
    have hlift : ∀ {y : Char}, rest.getLast? = some y → (c :: rest).getLast? = some y := by
      intro y hy
      cases rest with
      | nil => simp at hy
      | cons b u => rw [List.getLast?_cons_cons]; exact hy
    cases k with
    | succ n =>
      simp only [subWordGo] at h
      rcases ih _ _ _ h with h1 | h1
      · exact Or.inl h1
      · exact Or.inr (hlift h1)
    | zero =>
      simp only [subWordGo] at h
      by_cases hc : (!p && leadsWith w (c :: rest) &&
          boundaryAfter (List.drop w.length (c :: rest))) = true
      · rw [if_pos hc] at h
        cases he : subWordGo w d (w.length - 1) (isWordChar c) rest with
        | nil =>
          rw [he] at h
          simp only [List.getLast?_singleton, Option.some.injEq] at h
          exact Or.inl h.symm
        | cons z zs =>
          rw [he, List.getLast?_cons_cons] at h
          rcases ih _ _ _ (by rw [he]; exact h) with h1 | h1
          · exact Or.inl h1
          · exact Or.inr (hlift h1)
      · rw [if_neg hc] at h
        cases he : subWordGo w d 0 (isWordChar c) rest with
        | nil =>
          have hrest : rest = [] := subWordGo_zero_nil he
          subst hrest
          rw [he] at h
          simp only [List.getLast?_singleton, Option.some.injEq] at h
          exact Or.inr (by simp [h])
        | cons z zs =>
          rw [he, List.getLast?_cons_cons] at h
          rcases ih _ _ _ (by rw [he]; exact h) with h1 | h1
          · exact Or.inl h1
          · exact Or.inr (hlift h1)

/-! ## The substitution chain -/

theorem foldSub_mem {x : Char} : ∀ (ps : List (List Char × Char)) (l : List Char),
    x ∈ ps.foldl (fun t p => subWord p.1 p.2 t) l →
      x ∈ l ∨ ∃ p ∈ ps, x = p.2 := by
  intro ps
  induction ps with
  | nil => intro l h; exact Or.inl (by simpa using h)
  | cons q qs ih =>
    intro l h
    rw [List.foldl_cons] at h
    rcases ih _ h with h1 | h1
    · rcases mem_subWordGo _ _ _ h1 with h2 | h2
      · exact Or.inr ⟨q, List.mem_cons_self q qs, h2⟩
      · exact Or.inl h2
    · obtain ⟨p, hp, he⟩ := h1
      exact Or.inr ⟨p, List.mem_cons_of_mem q hp, he⟩

theorem foldSub_nds : ∀ (ps : List (List Char × Char)),
    (∀ p ∈ ps, ((p.2 : Char) == ' ') = false) → ∀ (l : List Char),
    noDoubleSpace l = true →
      noDoubleSpace (ps.foldl (fun t p => subWord p.1 p.2 t) l) = true := by
  intro ps
  induction ps with
  | nil => intro _ l h; simpa using h
  | cons q qs ih =>
    intro hps l h
    rw [List.foldl_cons]
    refine ih (fun p hp => hps p (List.mem_cons_of_mem q hp)) _ ?_
    exact subWordGo_nds (hps q (List.mem_cons_self q qs)) _ _ _ h

theorem foldSub_head (P : Char → Prop) : ∀ (ps : List (List Char × Char)),
    (∀ p ∈ ps, P p.2) → ∀ (l : List Char),
    (∀ x, l.head? = some x → P x) → ∀ y,
      (ps.foldl (fun t p => subWord p.1 p.2 t) l).head? = some y → P y := by
  intro ps
  induction ps with
  | nil => intro _ l hl y hy; exact hl y (by simpa using hy)
  | cons q qs ih =>
    intro hps l hl y hy
    rw [List.foldl_cons] at hy
    refine ih (fun p hp => hps p (List.mem_cons_of_mem q hp)) _ ?_ y hy
    intro x hx
    rcases subWordGo_zero_head hx with h1 | h1
    · exact h1 ▸ hps q (List.mem_cons_self q qs)
    · exact hl x h1

theorem foldSub_getLast (P : Char → Prop) : ∀ (ps : List (List Char × Char)),
    (∀ p ∈ ps, P p.2) → ∀ (l : List Char),
    (∀ x, l.getLast? = some x → P x) → ∀ y,
      (ps.foldl (fun t p => subWord p.1 p.2 t) l).getLast? = some y → P y := by
  intro ps
  induction ps with
  | nil => intro _ l hl y hy; exact hl y (by simpa using hy)
  | cons q qs ih =>
    intro hps l hl y hy
    rw [List.foldl_cons] at hy
    refine ih (fun p hp => hps p (List.mem_cons_of_mem q hp)) _ ?_ y hy
    intro x hx
    rcases subWordGo_getLast _ _ _ _ hx with h1 | h1
    · exact h1 ▸ hps q (List.mem_cons_self q qs)
    · exact hl x h1

/-! ## Bridge: the scanner acts on maximal word runs -/

theorem leadsWith_append : ∀ (u v : List Char), leadsWith u (u ++ v) = true := by
  intro u v
  induction u with
  | nil => rfl
  | cons a u' ih =>
    rw [List.cons_append, leadsWith, ih]
    simp

theorem leadsWith_decomp : ∀ (u s : List Char), leadsWith u s = true →
    s = u ++ s.drop u.length := by
  intro u
  induction u with
  | nil => intro s _; rfl
  | cons a u' ih =>
    intro s h
    cases s with
    | nil => cases h
    | cons b s' =>
      rw [leadsWith, Bool.and_eq_true, beq_iff_eq] at h
      obtain ⟨hab, h2⟩ := h
      subst hab
      rw [List.length_cons, List.cons_append, List.drop_succ_cons]
      rw [← ih s' h2]

theorem takeWhile_nil_of_head {p : Char → Bool} {l : List Char}
    (h : ∀ x, l.head? = some x → p x = false) : l.takeWhile p = [] := by
  cases l with
  | nil => rfl
  | cons c rest =>
    rw [List.takeWhile_cons, if_neg (by rw [h c rfl]; exact Bool.false_ne_true)]

theorem takeWhile_all_append {p : Char → Bool} {a b : List Char}
    (ha : ∀ c ∈ a, p c = true) (hb : ∀ x, b.head? = some x → p x = false) :
    (a ++ b).takeWhile p = a := by
  induction a with
  | nil => rw [List.nil_append]; exact takeWhile_nil_of_head hb
  | cons c a' ih =>
    rw [List.cons_append, List.takeWhile_cons,
      if_pos (ha c (List.mem_cons_self c a')),
      ih (fun x hx => ha x (List.mem_cons_of_mem c hx))]

theorem boundaryAfter_of_head {l : List Char}
    (h : ∀ x, l.head? = some x → isWordChar x = false) : boundaryAfter l = true := by
  cases l with
  | nil => rfl
  | cons c rest =>
    rw [boundaryAfter, h c rfl]
    rfl

theorem leadsWith_false_of_nonword {w : List Char} {c : Char} {rest : List Char}
    (hwall : ∀ x ∈ w, isWordChar x = true) (hne : w ≠ [])
    (hc : isWordChar c = false) : leadsWith w (c :: rest) = false := by
  cases w with
  | nil => exact absurd rfl hne
  | cons a w' =>
    have ha : isWordChar a = true := hwall a (List.mem_cons_self a w')
    have hac : (a == c) = false := by
      cases hab : a == c with
      | false => rfl
      | true =>
        rw [beq_iff_eq] at hab
        subst hab
        exact Bool.noConfusion (hc.symm.trans ha)
    rw [leadsWith, hac]
    rfl

theorem subWordGo_skipRun {w : List Char} {d : Char} :
    ∀ (t : List Char), (∀ c ∈ t, isWordChar c = true) →
    ∀ (l : List Char) (p : Bool), t ≠ [] →
      subWordGo w d t.length p (t ++ l) = subWordGo w d 0 true l := by
  intro t
  induction t with
  | nil => intro _ l p h; exact absurd rfl h
  | cons a t' ih =>
    intro hall l p _
    have ha : isWordChar a = true := hall a (List.mem_cons_self a t')
    rw [List.cons_append, List.length_cons]
    simp only [subWordGo]
    cases t' with
    | nil =>
      rw [List.nil_append, ha]
      exact rfl
    | cons b u =>
      exact ih (fun c hc => hall c (List.mem_cons_of_mem a hc)) l (isWordChar a) (by simp)

theorem subWordGo_true_run {w : List Char} {d : Char}
    (hwall : ∀ c ∈ w, isWordChar c = true) (hne : w ≠ []) :
    ∀ l : List Char, subWordGo w d 0 true l =
      l.takeWhile isWordChar ++ subWordGo w d 0 false (l.dropWhile isWordChar) := by
  intro l
  induction l with
  | nil => simp [subWordGo]
  | cons c rest ih =>
    by_cases hc : isWordChar c = true
    · simp only [subWordGo]
      rw [if_neg (by simp)]
      rw [List.takeWhile_cons, if_pos hc, List.dropWhile_cons, if_pos hc]
      rw [hc, ih, List.cons_append]
    · have hcf : isWordChar c = false := by
        cases hx : isWordChar c with
        | false => rfl
        | true => exact absurd hx hc
      have hlw : leadsWith w (c :: rest) = false :=
        leadsWith_false_of_nonword hwall hne hcf
      simp only [subWordGo]
      rw [hlw]
      rw [if_neg (by simp)]
      rw [List.takeWhile_cons, if_neg hc, List.dropWhile_cons, if_neg hc, List.nil_append]
      have hrhs : subWordGo w d 0 false (c :: rest) =
          c :: subWordGo w d 0 (isWordChar c) rest := by
        simp only [subWordGo]
        rw [hlw]
        rw [if_neg (by simp)]
      rw [hrhs]

theorem dropWhile_eq_self_of_head {p : Char → Bool} {l : List Char}
    (h : ∀ x, l.head? = some x → p x = false) : l.dropWhile p = l := by
  cases l with
  | nil => rfl
  | cons c rest =>
    rw [List.dropWhile_cons, if_neg (by rw [h c rfl]; exact Bool.false_ne_true)]

theorem subWord_eq_mapRuns {w : List Char} {d : Char}
    (hwall : ∀ c ∈ w, isWordChar c = true) (hne : w ≠ []) :
    ∀ l : List Char, subWord w d l = mapRuns (fun r => if r = w then [d] else r) l := by
  suffices H : ∀ (n : Nat) (l : List Char), l.length ≤ n →
      subWordGo w d 0 false l = mapRuns (fun r => if r = w then [d] else r) l by
    intro l
    exact H l.length l le_rfl
  intro n
  induction n with
  | zero =>
    intro l hl
    have hnil : l = [] := List.length_eq_zero.mp (Nat.le_zero.mp hl)
    subst hnil
    simp [subWordGo, mapRuns]
  | succ n ihn =>
    intro l hl
    cases l with
    | nil => simp [subWordGo, mapRuns]
    | cons c rest =>
      have hlen : rest.length ≤ n := by
        rw [List.length_cons] at hl; omega
      by_cases hc : isWordChar c = true
      · set t := rest.takeWhile isWordChar with ht
        set l2 := rest.dropWhile isWordChar with hl2
        clear_value t l2
        have hrest : t ++ l2 = rest := by
          rw [ht, hl2]; exact List.takeWhile_append_dropWhile isWordChar rest
        have htall : ∀ x ∈ t, isWordChar x = true := fun x hx =>
          List.mem_takeWhile_imp (ht ▸ hx)
        have hl2head : ∀ x, l2.head? = some x → isWordChar x = false := fun x hx =>
          dropWhile_head_not (hl2 ▸ hx)
        have hl2len : l2.length ≤ n :=
          le_trans (hl2 ▸ (List.dropWhile_sublist isWordChar).length_le) hlen
        have hmr : mapRuns (fun r => if r = w then [d] else r) (c :: rest) =
            (if (c :: t) = w then [d] else (c :: t)) ++
              mapRuns (fun r => if r = w then [d] else r) l2 := by
          simp only [mapRuns]
          rw [if_pos hc, ← ht, ← hl2]
        by_cases hr : (c :: t) = w
        · have hlead : leadsWith w (c :: rest) = true := by
            rw [← hr, ← hrest, ← List.cons_append]
            exact leadsWith_append _ _
          have hbound : boundaryAfter (List.drop w.length (c :: rest)) = true := by
            rw [← hr, ← hrest, List.length_cons, List.drop_succ_cons, List.drop_left]
            exact boundaryAfter_of_head hl2head
          have hcond : (!false && leadsWith w (c :: rest) &&
              boundaryAfter (List.drop w.length (c :: rest))) = true := by
            rw [hlead, hbound]; rfl
          have hskip : subWordGo w d (w.length - 1) (isWordChar c) rest =
              subWordGo w d 0 true l2 := by
            rw [← hr, List.length_cons, Nat.add_sub_cancel, ← hrest]
            cases t with
            | nil =>
              rw [List.length_nil, List.nil_append, hc]
            | cons a t' =>
              exact subWordGo_skipRun (a :: t') htall l2 (isWordChar c) (by simp)
          simp only [subWordGo]
          rw [if_pos hcond, hskip, subWordGo_true_run hwall hne l2,
            takeWhile_nil_of_head hl2head, List.nil_append,
            dropWhile_eq_self_of_head hl2head, ihn l2 hl2len, hmr, if_pos hr]
          rfl
        · have hcond : ¬ (!false && leadsWith w (c :: rest) &&
              boundaryAfter (List.drop w.length (c :: rest))) = true := by
            intro hcontra
            rw [Bool.and_eq_true, Bool.and_eq_true] at hcontra
            obtain ⟨⟨_, hlead⟩, hbound⟩ := hcontra
            have hdec := leadsWith_decomp w (c :: rest) hlead
            have hz : ∀ x, (List.drop w.length (c :: rest)).head? = some x →
                isWordChar x = false := by
              intro x hx
              cases hdd : List.drop w.length (c :: rest) with
              | nil => rw [hdd] at hx; cases hx
              | cons z zs =>
                rw [hdd] at hx hbound
                simp only [List.head?_cons, Option.some.injEq] at hx
                rw [boundaryAfter] at hbound
                rw [← hx]
                cases hzz : isWordChar z with
                | false => rfl
                | true => rw [hzz] at hbound; exact absurd hbound (by decide)
            have htw : (c :: rest).takeWhile isWordChar = w := by
              rw [hdec]
              exact takeWhile_all_append hwall hz
            have : c :: t = w := by
              rw [← htw, List.takeWhile_cons, if_pos hc, ← ht]
            exact hr this
          simp only [subWordGo]
          rw [if_neg hcond, hc, subWordGo_true_run hwall hne rest, ← ht, ← hl2,
            ihn l2 hl2len, hmr, if_neg hr, List.cons_append]
      · have hcf : isWordChar c = false := by
          cases hx : isWordChar c with
          | false => rfl
          | true => exact absurd hx hc
        have hlw : leadsWith w (c :: rest) = false :=
          leadsWith_false_of_nonword hwall hne hcf
        have hmr : mapRuns (fun r => if r = w then [d] else r) (c :: rest) =
            c :: mapRuns (fun r => if r = w then [d] else r) rest := by
          simp only [mapRuns]
          rw [if_neg hc]
        simp only [subWordGo]
        rw [hlw]
        rw [if_neg (by simp), hcf, ihn rest hlen, hmr]

/-! ## Composition of run maps -/

theorem mapRuns_nil (f : List Char → List Char) : mapRuns f [] = [] := by
  simp [mapRuns]

theorem mapRuns_head {f : List Char → List Char} {l : List Char}
    (h : ∀ x, l.head? = some x → isWordChar x = false) :
    ∀ x, (mapRuns f l).head? = some x → isWordChar x = false := by
  cases l with
  | nil => rw [mapRuns_nil]; intro x hx; cases hx
  | cons c rest =>
    have hcf : isWordChar c = false := h c rfl
    have he : mapRuns f (c :: rest) = c :: mapRuns f rest := by
      simp only [mapRuns]
      rw [if_neg (by rw [hcf]; exact Bool.false_ne_true)]
    rw [he]
    intro x hx
    simp only [List.head?_cons, Option.some.injEq] at hx
    rw [← hx]
    exact hcf

theorem dropWhile_all_append {p : Char → Bool} {a b : List Char}
    (ha : ∀ c ∈ a, p c = true) : (a ++ b).dropWhile p = b.dropWhile p := by
  induction a with
  | nil => rw [List.nil_append]
  | cons c a' ih =>
    rw [List.cons_append, List.dropWhile_cons, if_pos (ha c (List.mem_cons_self c a'))]
    exact ih (fun x hx => ha x (List.mem_cons_of_mem c hx))

theorem mapRuns_comp {f g : List Char → List Char}
    (hg : ∀ r, r ≠ [] → (∀ c ∈ r, isWordChar c = true) →
      (g r ≠ [] ∧ ∀ c ∈ g r, isWordChar c = true)) :
    ∀ l : List Char, mapRuns f (mapRuns g l) = mapRuns (fun r => f (g r)) l := by
  suffices H : ∀ (n : Nat) (l : List Char), l.length ≤ n →
      mapRuns f (mapRuns g l) = mapRuns (fun r => f (g r)) l by
    intro l
    exact H l.length l le_rfl
  intro n
  induction n with
  | zero =>
    intro l hl
    have hnil : l = [] := List.length_eq_zero.mp (Nat.le_zero.mp hl)
    subst hnil
    simp [mapRuns_nil]
  | succ n ihn =>
    intro l hl
    cases l with
    | nil => simp [mapRuns_nil]
    | cons c rest =>
      have hlen : rest.length ≤ n := by
        rw [List.length_cons] at hl; omega
      by_cases hc : isWordChar c = true
      · set t := rest.takeWhile isWordChar with ht
        set l2 := rest.dropWhile isWordChar with hl2
        clear_value t l2
        have htall : ∀ x ∈ t, isWordChar x = true := fun x hx =>
          List.mem_takeWhile_imp (ht ▸ hx)
        have hl2head : ∀ x, l2.head? = some x → isWordChar x = false := fun x hx =>
          dropWhile_head_not (hl2 ▸ hx)
        have hl2len : l2.length ≤ n :=
          le_trans (hl2 ▸ (List.dropWhile_sublist isWordChar).length_le) hlen
        have hrall : ∀ x ∈ c :: t, isWordChar x = true := by
          intro x hx
          rcases List.mem_cons.mp hx with h1 | h1
          · exact h1 ▸ hc
          · exact htall x h1
        obtain ⟨hgne, hgall⟩ := hg (c :: t) (by simp) hrall
        have hinner : mapRuns g (c :: rest) = g (c :: t) ++ mapRuns g l2 := by
          simp only [mapRuns]
          rw [if_pos hc, ← ht, ← hl2]
        have hXhead : ∀ x, (mapRuns g l2).head? = some x → isWordChar x = false :=
          mapRuns_head hl2head
        have houter : mapRuns f (g (c :: t) ++ mapRuns g l2) =
            f (g (c :: t)) ++ mapRuns f (mapRuns g l2) := by
          cases hge : g (c :: t) with
          | nil => exact absurd hge hgne
          | cons gh gt =>
            have hgh : isWordChar gh = true :=
              hgall gh (hge ▸ List.mem_cons_self gh gt)
            have hgtall : ∀ x ∈ gt, isWordChar x = true := fun x hx =>
              hgall x (hge ▸ List.mem_cons_of_mem gh hx)
            rw [List.cons_append]
            simp only [mapRuns]
            rw [if_pos hgh]
            rw [show (gt ++ mapRuns g l2).takeWhile isWordChar = gt from
              takeWhile_all_append hgtall hXhead]
            rw [show (gt ++ mapRuns g l2).dropWhile isWordChar = mapRuns g l2 from by
              rw [dropWhile_all_append hgtall]
              exact dropWhile_eq_self_of_head hXhead]
        have hrhs : mapRuns (fun r => f (g r)) (c :: rest) =
            f (g (c :: t)) ++ mapRuns (fun r => f (g r)) l2 := by
          simp only [mapRuns]
          rw [if_pos hc, ← ht, ← hl2]
        rw [hinner, houter, ihn l2 hl2len, hrhs]
      · have hcf : isWordChar c = false := by
          cases hx : isWordChar c with
          | false => rfl
          | true => exact absurd hx hc
        have hinner : mapRuns g (c :: rest) = c :: mapRuns g rest := by
          simp only [mapRuns]
          rw [if_neg hc]
        have houter : mapRuns f (c :: mapRuns g rest) =
            c :: mapRuns f (mapRuns g rest) := by
          simp only [mapRuns]
          rw [if_neg hc]
        have hrhs : mapRuns (fun r => f (g r)) (c :: rest) =
            c :: mapRuns (fun r => f (g r)) rest := by
          simp only [mapRuns]
          rw [if_neg hc]
        rw [hinner, houter, ihn rest hlen, hrhs]

theorem mapRuns_congr {f g : List Char → List Char}
    (h : ∀ r, r ≠ [] → (∀ c ∈ r, isWordChar c = true) → f r = g r) :
    ∀ l : List Char, mapRuns f l = mapRuns g l := by
  suffices H : ∀ (n : Nat) (l : List Char), l.length ≤ n →
      mapRuns f l = mapRuns g l by
    intro l
    exact H l.length l le_rfl
  intro n
  induction n with
  | zero =>
    intro l hl
    have hnil : l = [] := List.length_eq_zero.mp (Nat.le_zero.mp hl)
    subst hnil
    simp [mapRuns_nil]
  | succ n ihn =>
    intro l hl
    cases l with
    | nil => simp [mapRuns_nil]
    | cons c rest =>
      have hlen : rest.length ≤ n := by
        rw [List.length_cons] at hl; omega
      by_cases hc : isWordChar c = true
      · have hrall : ∀ x ∈ c :: rest.takeWhile isWordChar, isWordChar x = true := by
          intro x hx
          rcases List.mem_cons.mp hx with h1 | h1
          · exact h1 ▸ hc
          · exact List.mem_takeWhile_imp h1
        have hl2len : (rest.dropWhile isWordChar).length ≤ n :=
          le_trans (List.dropWhile_sublist isWordChar).length_le hlen
        simp only [mapRuns]
        rw [if_pos hc, if_pos hc, h _ (by simp) hrall, ihn _ hl2len]
      · simp only [mapRuns]
        rw [if_neg hc, if_neg hc, ihn rest hlen]

/-! ## The chain of ten substitutions as one run map -/

theorem subWord_eq_mapRunsF {w : List Char} {d : Char}
    (hwall : ∀ c ∈ w, isWordChar c = true) (hne : w ≠ []) :
    ∀ l : List Char, subWord w d l = mapRuns (F w d) l :=
  subWord_eq_mapRuns hwall hne

theorem wordFun_preserves (w : List Char) (d : Char) (hd : isWordChar d = true) :
    ∀ r, r ≠ [] → (∀ c ∈ r, isWordChar c = true) →
      (F w d r ≠ [] ∧ ∀ c ∈ F w d r, isWordChar c = true) := by
  intro r hne hall
  by_cases hrw : r = w
  · rw [F, if_pos hrw]
    refine ⟨by simp, ?_⟩
    intro c hcm
    rw [List.mem_singleton] at hcm
    exact hcm ▸ hd
  · rw [F, if_neg hrw]
    exact ⟨hne, hall⟩

theorem numWordChain : ∀ r : List Char,
    F ("zero".toList) '0' (F ("nine".toList) '9' (F ("eight".toList) '8' (F ("seven".toList) '7'
      (F ("six".toList) '6' (F ("five".toList) '5' (F ("four".toList) '4' (F ("three".toList) '3'
      (F ("two".toList) '2' (F ("one".toList) '1' r))))))))) = numWordFun r := by
  intro r
  by_cases h1 : r = "one".toList
  · subst h1; decide
  by_cases h2 : r = "two".toList
  · subst h2; decide
  by_cases h3 : r = "three".toList
  · subst h3; decide
  by_cases h4 : r = "four".toList
  · subst h4; decide
  by_cases h5 : r = "five".toList
  · subst h5; decide
  by_cases h6 : r = "six".toList
  · subst h6; decide
  by_cases h7 : r = "seven".toList
  · subst h7; decide
  by_cases h8 : r = "eight".toList
  · subst h8; decide
  by_cases h9 : r = "nine".toList
  · subst h9; decide
  by_cases h10 : r = "zero".toList
  · subst h10; decide
  simp only [F, numWordFun, if_neg h1, if_neg h2, if_neg h3, if_neg h4, if_neg h5,
    if_neg h6, if_neg h7, if_neg h8, if_neg h9, if_neg h10]

theorem replaceNumberWords_eq_mapRuns (l : List Char) :
    replaceNumberWords l = mapRuns numWordFun l := by
  have e1 : replaceNumberWords l =
      subWord ("zero".toList) '0' (subWord ("nine".toList) '9' (subWord ("eight".toList) '8'
        (subWord ("seven".toList) '7' (subWord ("six".toList) '6' (subWord ("five".toList) '5'
        (subWord ("four".toList) '4' (subWord ("three".toList) '3' (subWord ("two".toList) '2'
        (subWord ("one".toList) '1' l))))))))) := rfl
  rw [e1]
  rw [subWord_eq_mapRunsF (w := "one".toList) (d := '1') (by decide) (by decide),
    subWord_eq_mapRunsF (w := "two".toList) (d := '2') (by decide) (by decide),
    subWord_eq_mapRunsF (w := "three".toList) (d := '3') (by decide) (by decide),
    subWord_eq_mapRunsF (w := "four".toList) (d := '4') (by decide) (by decide),
    subWord_eq_mapRunsF (w := "five".toList) (d := '5') (by decide) (by decide),
    subWord_eq_mapRunsF (w := "six".toList) (d := '6') (by decide) (by decide),
    subWord_eq_mapRunsF (w := "seven".toList) (d := '7') (by decide) (by decide),
    subWord_eq_mapRunsF (w := "eight".toList) (d := '8') (by decide) (by decide),
    subWord_eq_mapRunsF (w := "nine".toList) (d := '9') (by decide) (by decide),
    subWord_eq_mapRunsF (w := "zero".toList) (d := '0') (by decide) (by decide)]
  rw [mapRuns_comp (wordFun_preserves ("nine".toList) '9' (by decide)),
    mapRuns_comp (wordFun_preserves ("eight".toList) '8' (by decide)),
    mapRuns_comp (wordFun_preserves ("seven".toList) '7' (by decide)),
    mapRuns_comp (wordFun_preserves ("six".toList) '6' (by decide)),
    mapRuns_comp (wordFun_preserves ("five".toList) '5' (by decide)),
    mapRuns_comp (wordFun_preserves ("four".toList) '4' (by decide)),
    mapRuns_comp (wordFun_preserves ("three".toList) '3' (by decide)),
    mapRuns_comp (wordFun_preserves ("two".toList) '2' (by decide)),
    mapRuns_comp (wordFun_preserves ("one".toList) '1' (by decide))]
  exact mapRuns_congr (fun r _ _ => numWordChain r) l

theorem numWordFun_preserves :
    ∀ r, r ≠ [] → (∀ c ∈ r, isWordChar c = true) →
      (numWordFun r ≠ [] ∧ ∀ c ∈ numWordFun r, isWordChar c = true) := by
  intro r hne hall
  by_cases h1 : r = "one".toList
  · subst h1; exact ⟨by decide, by decide⟩
  by_cases h2 : r = "two".toList
  · subst h2; exact ⟨by decide, by decide⟩
  by_cases h3 : r = "three".toList
  · subst h3; exact ⟨by decide, by decide⟩
  by_cases h4 : r = "four".toList
  · subst h4; exact ⟨by decide, by decide⟩
  by_cases h5 : r = "five".toList
  · subst h5; exact ⟨by decide, by decide⟩
  by_cases h6 : r = "six".toList
  · subst h6; exact ⟨by decide, by decide⟩
  by_cases h7 : r = "seven".toList
  · subst h7; exact ⟨by decide, by decide⟩
  by_cases h8 : r = "eight".toList
  · subst h8; exact ⟨by decide, by decide⟩
  by_cases h9 : r = "nine".toList
  · subst h9; exact ⟨by decide, by decide⟩
  by_cases h10 : r = "zero".toList
  · subst h10; exact ⟨by decide, by decide⟩
  have he : numWordFun r = r := by
    simp only [numWordFun, if_neg h1, if_neg h2, if_neg h3, if_neg h4, if_neg h5,
      if_neg h6, if_neg h7, if_neg h8, if_neg h9, if_neg h10]
  rw [he]
  exact ⟨hne, hall⟩

theorem numWordFun_idem : ∀ r : List Char, numWordFun (numWordFun r) = numWordFun r := by
  intro r
  by_cases h1 : r = "one".toList
  · subst h1; decide
  by_cases h2 : r = "two".toList
  · subst h2; decide
  by_cases h3 : r = "three".toList
  · subst h3; decide
  by_cases h4 : r = "four".toList
  · subst h4; decide
  by_cases h5 : r = "five".toList
  · subst h5; decide
  by_cases h6 : r = "six".toList
  · subst h6; decide
  by_cases h7 : r = "seven".toList
  · subst h7; decide
  by_cases h8 : r = "eight".toList
  · subst h8; decide
  by_cases h9 : r = "nine".toList
  · subst h9; decide
  by_cases h10 : r = "zero".toList
  · subst h10; decide
  have he : numWordFun r = r := by
    simp only [numWordFun, if_neg h1, if_neg h2, if_neg h3, if_neg h4, if_neg h5,
      if_neg h6, if_neg h7, if_neg h8, if_neg h9, if_neg h10]
  rw [he]
  exact he

theorem replaceNumberWords_idem (l : List Char) :
    replaceNumberWords (replaceNumberWords l) = replaceNumberWords l := by
  rw [replaceNumberWords_eq_mapRuns, replaceNumberWords_eq_mapRuns,
    mapRuns_comp numWordFun_preserves]
  exact mapRuns_congr (fun r _ _ => numWordFun_idem r) l

/-! ## The normalizer is the substitution chain on canonical strings -/

theorem bnot_true_to_false {b : Bool} (h : (!b) = true) : b = false := by
  cases b with
  | false => rfl
  | true => exact absurd h (by decide)

theorem toLowerCh_outChar {c : Char} (h : outChar c = true) : toLowerCh c = c := by
  have hnotup : ¬ isUpperAlpha c = true := by
    rw [outChar, Bool.or_eq_true, Bool.or_eq_true] at h
    simp only [isUpperAlpha, Bool.and_eq_true, decide_eq_true_eq]
    rcases h with (h | h) | h
    · simp only [isLowerAlpha, Bool.and_eq_true, decide_eq_true_eq] at h
      omega
    · simp only [isDigitChar, Bool.and_eq_true, decide_eq_true_eq] at h
      omega
    · rw [beq_iff_eq] at h
      subst h
      decide
  rw [toLowerCh, if_neg hnotup]

theorem pyLower_eq_self {l : List Char} (h : ∀ c ∈ l, outChar c = true) :
    pyLower l = l := by
  induction l with
  | nil => rfl
  | cons a t ih =>
    simp only [pyLower, List.map_cons] at *
    rw [toLowerCh_outChar (h a (List.mem_cons_self a t)),
      ih (fun c hc => h c (List.mem_cons_of_mem a hc))]

theorem outChar_keepChar {c : Char} (h : outChar c = true) : keepChar c = true := by
  rw [outChar, Bool.or_eq_true, Bool.or_eq_true] at h
  rw [keepChar, Bool.or_eq_true, Bool.or_eq_true]
  rcases h with (h | h) | h
  · exact Or.inl (Or.inl h)
  · exact Or.inl (Or.inr h)
  · rw [beq_iff_eq] at h
    subst h
    exact Or.inr (by decide)

theorem outChar_space {c : Char} (ho : outChar c = true)
    (hs : isSpaceChar c = true) : c = ' ' := by
  rw [outChar, Bool.or_eq_true, Bool.or_eq_true] at ho
  rcases ho with (h | h) | h
  · exfalso
    simp only [isLowerAlpha, Bool.and_eq_true, decide_eq_true_eq] at h
    simp only [isSpaceChar, Bool.or_eq_true, beq_iff_eq] at hs
    omega
  · exfalso
    simp only [isDigitChar, Bool.and_eq_true, decide_eq_true_eq] at h
    simp only [isSpaceChar, Bool.or_eq_true, beq_iff_eq] at hs
    omega
  · exact beq_iff_eq.mp h

theorem outChar_not_space {c : Char} (ho : outChar c = true)
    (hne : (c == ' ') = false) : isSpaceChar c = false := by
  cases hs : isSpaceChar c with
  | false => rfl
  | true =>
    have := outChar_space ho hs
    subst this
    exact absurd hne (by decide)

theorem stripNonAlnum_eq_self {l : List Char} (h : ∀ c ∈ l, keepChar c = true) :
    stripNonAlnum l = l := by
  rw [stripNonAlnum]
  exact List.filter_eq_self.mpr h

theorem collapseSpaces_eq_self : ∀ l : List Char,
    (∀ c ∈ l, isSpaceChar c = true → c = ' ') → noDoubleSpace l = true →
    collapseSpaces false l = l ∧
      ((∀ x, l.head? = some x → (x == ' ') = false) → collapseSpaces true l = l) := by
  intro l
  induction l with
  | nil => intro _ _; exact ⟨rfl, fun _ => rfl⟩
  | cons c t ih =>
    intro hsp hnds
    obtain ⟨ih1, ih2⟩ :=
      ih (fun x hx h => hsp x (List.mem_cons_of_mem c hx) h) (noDoubleSpace_tail hnds)
    by_cases hc : isSpaceChar c = true
    · have hce : c = ' ' := hsp c (List.mem_cons_self c t) hc
      subst hce
      have hth : ∀ x, t.head? = some x → (x == ' ') = false := by
        intro x hx
        cases t with
        | nil => cases hx
        | cons b u =>
          simp only [List.head?_cons, Option.some.injEq] at hx
          have hp := noDoubleSpace_pair hnds
          rw [show ((' ' == ' ') = true) from rfl] at hp
          simp only [Bool.true_and] at hp
          rw [← hx]
          exact hp
      constructor
      · have e : collapseSpaces false (' ' :: t) = ' ' :: collapseSpaces true t := by
          rw [collapseSpaces, if_pos hc]
          rfl
        rw [e, ih2 hth]
      · intro hh
        exact absurd (hh ' ' rfl) (by decide)
    · constructor
      · rw [collapseSpaces, if_neg hc, ih1]
      · intro _
        rw [collapseSpaces, if_neg hc, ih1]

theorem trimRight_eq_self : ∀ {l : List Char},
    (∀ x, l.getLast? = some x → isSpaceChar x = false) → trimRight l = l := by
  intro l
  induction l with
  | nil => intro _; rfl
  | cons c t ih =>
    intro h
    cases t with
    | nil =>
      have hc : isSpaceChar c = false := h c (by simp)
      have e : trimRight [c] = if isSpaceChar c then [] else [c] := rfl
      rw [e, if_neg (by rw [hc]; exact Bool.false_ne_true)]
    | cons b u =>
      have ht : trimRight (b :: u) = b :: u :=
        ih (fun x hx => h x (by rw [List.getLast?_cons_cons]; exact hx))
      have e : trimRight (c :: b :: u) =
          if (trimRight (b :: u)).isEmpty && isSpaceChar c then []
          else c :: trimRight (b :: u) := rfl
      rw [e, ht]
      rw [if_neg (by simp)]

theorem canonOut_parts {l : List Char} (h : canonOut l = true) :
    (∀ c ∈ l, outChar c = true) ∧ noDoubleSpace l = true ∧
      (∀ x, l.head? = some x → (x == ' ') = false) ∧
      (∀ x, l.getLast? = some x → (x == ' ') = false) := by
  rw [canonOut, Bool.and_eq_true, Bool.and_eq_true, Bool.and_eq_true] at h
  obtain ⟨⟨⟨hall, hnds⟩, hh⟩, hl⟩ := h
  refine ⟨fun c hc => List.all_eq_true.mp hall c hc, hnds, ?_, ?_⟩
  · intro x hx
    rw [hx] at hh
    exact bnot_true_to_false hh
  · intro x hx
    rw [hx] at hl
    exact bnot_true_to_false hl

theorem normalize_eq_replace_on_canon {l : List Char}
    (hall : ∀ c ∈ l, outChar c = true) (hnds : noDoubleSpace l = true)
    (hh : ∀ x, l.head? = some x → (x == ' ') = false)
    (hl : ∀ x, l.getLast? = some x → (x == ' ') = false) :
    normalize_string l = replaceNumberWords l := by
  have hm : ∀ c ∈ replaceNumberWords l, outChar c = true := by
    intro c hc
    have hc' : c ∈ numberWordPairs.foldl (fun t p => subWord p.1 p.2 t) l := hc
    rcases foldSub_mem numberWordPairs l hc' with h | h
    · exact hall c h
    · obtain ⟨p, hp, he⟩ := h
      subst he
      have hdig : ∀ q ∈ numberWordPairs, outChar q.2 = true := by decide
      exact hdig p hp
  have hR_space : ∀ c ∈ replaceNumberWords l, isSpaceChar c = true → c = ' ' :=
    fun c hc hs => outChar_space (hm c hc) hs
  have hRnds : noDoubleSpace (replaceNumberWords l) = true := by
    have hdig : ∀ p ∈ numberWordPairs, ((p.2 : Char) == ' ') = false := by decide
    exact foldSub_nds numberWordPairs hdig l hnds
  have hRhead : ∀ x, (replaceNumberWords l).head? = some x → (x == ' ') = false := by
    intro x hx
    exact foldSub_head (fun c => (c == ' ') = false) numberWordPairs (by decide) l hh x hx
  have hRlast : ∀ x, (replaceNumberWords l).getLast? = some x → (x == ' ') = false := by
    intro x hx
    exact foldSub_getLast (fun c => (c == ' ') = false) numberWordPairs (by decide) l hl x hx
  show pyStrip (collapseSpaces false (stripNonAlnum (replaceNumberWords (pyLower l)))) =
    replaceNumberWords l
  rw [pyLower_eq_self hall,
    stripNonAlnum_eq_self (fun c hc => outChar_keepChar (hm c hc)),
    (collapseSpaces_eq_self _ hR_space hRnds).1]
  show trimRight ((replaceNumberWords l).dropWhile isSpaceChar) = replaceNumberWords l
  rw [dropWhile_eq_self_of_head (fun x hx =>
    outChar_not_space (hm x (List.mem_of_mem_head? hx)) (hRhead x hx))]
  exact trimRight_eq_self (fun x hx =>
    outChar_not_space (hm x (List.mem_of_mem_getLast? hx)) (hRlast x hx))

/-- Claim C2 (amended): the normalizer is idempotent from the second
application on: a third application never changes the result of a second
one. -/
theorem normalize_idempotent_after_first_pass (x : List Char) :
    normalize_string (normalize_string (normalize_string x)) =
      normalize_string (normalize_string x) := by
  obtain ⟨hall, hnds, hh, hl⟩ := canonOut_parts (canonOut_normalize x)
  have h1 : normalize_string (normalize_string x) =
      replaceNumberWords (normalize_string x) :=
    normalize_eq_replace_on_canon hall hnds hh hl
  obtain ⟨hall2, hnds2, hh2, hl2⟩ :=
    canonOut_parts (canonOut_normalize (normalize_string x))
  have h2 : normalize_string (normalize_string (normalize_string x)) =
      replaceNumberWords (normalize_string (normalize_string x)) :=
    normalize_eq_replace_on_canon hall2 hnds2 hh2 hl2
  rw [h2, h1, replaceNumberWords_idem, ← h1]

end NearestStore
